import Mathlib

/-!
Verification development for the HyperDex `binary` benchmark harness
(`src/bin/binary.cc`).  The harness bit-encodes each unsigned 32-bit
identifier into a 32-attribute record, loads all records into a space,
pauses, then searches for each record by its attribute constraints,
verifies the results and reports the elapsed time of the search phase.

The shallow embedding below follows the C++ source statement by
statement.  Byte buffers (`e::buffer`) are modelled as lists of byte
values; `timespec` fields are modelled as mathematical integers (the
C types `time_t`/`long` are 64-bit signed and no realistic timestamp
difference approaches their range).
-/

/-- A byte buffer (`e::buffer`): a finite sequence of byte values. -/
abbrev Buffer := List Nat

/-- The `e::buffer(const char* d, size_t sz)` constructor copies the first
`sz` bytes of `d`.  Modelled as truncating the byte sequence of the string
literal to `sz` bytes. -/
def bufferOfCStr (s : String) (sz : Nat) : Buffer :=
  (s.toList.map Char.toNat).take sz

/-- The sentinel `one` from `e::buffer one("one", 3)`. -/
def one : Buffer := bufferOfCStr "one" 3

/-- The sentinel `zero` from `e::buffer zero("zero", 3)`: the length
argument 3 truncates the literal "zero" to its first three bytes. -/
def zero : Buffer := bufferOfCStr "zero" 3

/-! ## Timing harness (`clock_gettime` difference, binary.cc lines 190-205) -/

/-- A `struct timespec` value: seconds and nanoseconds, both signed. -/
structure Timespec where
  tv_sec : Int
  tv_nsec : Int
deriving DecidableEq, Repr

/-- The guard of the borrow branch, exactly as written in the source:
`(end.tv_nsec < start.tv_nsec) < 0`.  The inner comparison is a C++ bool,
converted to the integer 0 or 1 before the outer comparison with 0. -/
def borrowGuard (start endT : Timespec) : Bool :=
  decide ((if endT.tv_nsec < start.tv_nsec then (1 : Int) else 0) < 0)

/-- The `diff` timespec computed by the harness: the borrow branch
subtracts one second and adds 1000000000 nanoseconds, the other branch
subtracts componentwise. -/
def timespecDiff (start endT : Timespec) : Timespec :=
  if borrowGuard start endT then
    ⟨endT.tv_sec - start.tv_sec - 1, 1000000000 + endT.tv_nsec - start.tv_nsec⟩
  else
    ⟨endT.tv_sec - start.tv_sec, endT.tv_nsec - start.tv_nsec⟩

/-- The reported value `diff.tv_sec * 1000000000 + diff.tv_nsec`,
computed in signed 64-bit arithmetic before the conversion to
`uint64_t`. -/
def reportedNanosecs (start endT : Timespec) : Int :=
  (timespecDiff start endT).tv_sec * 1000000000 + (timespecDiff start endT).tv_nsec

/-- A timespec as a single nanosecond instant. -/
def instantNs (t : Timespec) : Int :=
  t.tv_sec * 1000000000 + t.tv_nsec

/-! ## Bit encoder (binary.cc lines 104-122 and 152-166) -/

/-- The attribute chosen for bit index `i` of `num`, exactly as the source
tests it: `if ((num & (1 << i)))` selects `one`, otherwise `zero`. -/
def bitAttr (num i : Nat) : Buffer :=
  if num &&& (1 <<< i) ≠ 0 then one else zero

/-- The attribute vector built by the load loop: for each `i` in `[0,32)`
the loop pushes back a buffer and assigns it the chosen sentinel. -/
def attrVec (num : Nat) : List Buffer :=
  (List.range 32).foldl (fun value i => value ++ [bitAttr num i]) []

/-- Modelled from the spec: the key packing `key.pack() << num` uses the
e::buffer packing operator, which is not under src/; the spec describes the
Key as "the fixed-width binary encoding of n (a byte-accurate packing, not
the decimal text)".  Modelled as the 4-byte big-endian encoding of the
unsigned 32-bit value. -/
def packKey (num : Nat) : Buffer :=
  [num / 16777216 % 256, num / 65536 % 256, num / 256 % 256, num % 256]

/-- Modelled from the spec: "decoding the attribute vector back to an
integer must reproduce n" — the decoder reads which of ONE/ZERO occupies
each index and reassembles the bits; no decoder appears in src/. -/
def decode (attrs : List Buffer) : Nat :=
  attrs.foldr (fun a acc => (if a = one then 1 else 0) + 2 * acc) 0

/-- Width-generic form of the attribute vector, used for induction. -/
def attrVecW (w num : Nat) : List Buffer :=
  (List.range w).map (bitAttr num)

theorem foldl_push_eq_map {α β : Type} (f : α → β) :
    ∀ (l : List α) (acc : List β),
      l.foldl (fun v i => v ++ [f i]) acc = acc ++ l.map f := by
  intro l
  induction l with
  | nil => intro acc; simp
  | cons a l ih => intro acc; simp [ih]

theorem attrVec_eq_map (num : Nat) : attrVec num = attrVecW 32 num := by
  unfold attrVec attrVecW
  rw [foldl_push_eq_map]
  simp

theorem and_two_pow_ne_zero_iff (n i : Nat) :
    (n &&& (1 <<< i) ≠ 0) ↔ n.testBit i = true := by
  rw [Nat.one_shiftLeft]
  constructor
  · intro h
    obtain ⟨j, hj⟩ := Nat.ne_zero_implies_bit_true h
    rw [Nat.testBit_and] at hj
    obtain ⟨h1, h2⟩ := Bool.and_eq_true_iff.mp hj
    rw [Nat.testBit_two_pow] at h2
    have hij : i = j := of_decide_eq_true h2
    rw [hij]
    exact h1
  · intro h hzero
    have hbit : (n &&& 2 ^ i).testBit i = true := by
      rw [Nat.testBit_and, h, Nat.testBit_two_pow_self]
      rfl
    rw [hzero, Nat.zero_testBit] at hbit
    exact Bool.false_ne_true hbit

theorem testBit_iff_shift_and_one (n i : Nat) :
    n.testBit i = true ↔ (n >>> i) &&& 1 = 1 := by
  rw [Nat.testBit_to_div_mod, decide_eq_true_eq, Nat.shiftRight_eq_div_pow,
    Nat.and_one_is_mod]

theorem bitAttr_eq_shift_test (n i : Nat) :
    bitAttr n i = (if (n >>> i) &&& 1 = 1 then one else zero) := by
  unfold bitAttr
  exact if_congr ((and_two_pow_ne_zero_iff n i).trans (testBit_iff_shift_and_one n i))
    rfl rfl

theorem bitAttr_succ (n i : Nat) : bitAttr n (i + 1) = bitAttr (n / 2) i := by
  unfold bitAttr
  refine if_congr ?_ rfl rfl
  rw [and_two_pow_ne_zero_iff, and_two_pow_ne_zero_iff, Nat.testBit_add_one]

theorem bitAttr_zero_eq (n : Nat) :
    bitAttr n 0 = (if n % 2 = 1 then one else zero) := by
  unfold bitAttr
  refine if_congr ?_ rfl rfl
  rw [Nat.one_shiftLeft, pow_zero, Nat.and_one_is_mod]
  omega

theorem decode_attrVecW (w : Nat) : ∀ n, decode (attrVecW w n) = n % 2 ^ w := by
  induction w with
  | zero =>
    intro n
    simp [attrVecW, decode, Nat.mod_one]
  | succ w ih =>
    intro n
    unfold attrVecW
    rw [List.range_succ_eq_map, List.map_cons, List.map_map]
    have hcomp : (bitAttr n ∘ Nat.succ) = bitAttr (n / 2) :=
      funext fun i => bitAttr_succ n i
    rw [hcomp]
    show (if bitAttr n 0 = one then 1 else 0) + 2 * decode (attrVecW w (n / 2))
      = n % 2 ^ (w + 1)
    rw [ih (n / 2)]
    have h0 : (if bitAttr n 0 = one then (1 : Nat) else 0) = n % 2 := by
      rw [bitAttr_zero_eq]
      by_cases h : n % 2 = 1
      · simp [h]
      · have h2 : n % 2 = 0 := by omega
        have hz : zero ≠ one := by decide
        simp [h, h2, hz]
    rw [h0, pow_succ, mul_comm (2 ^ w) 2, Nat.mod_mul]

/-- C7: the attribute vector produced by the encoding loop has length
exactly 32 for every input — one entry per bit index. -/
theorem c7_attr_vector_length (n : Nat) : (attrVec n).length = 32 := by
  rw [attrVec_eq_map]
  unfold attrVecW
  simp

/-- C2: for every uint32 `n` and every index `i` in `[0,32)`, the encoding
loop puts `one` at position `i` exactly when `(n >> i) & 1 = 1` and `zero`
otherwise; the key is the 4-byte canonical binary packing of `n` (fixed
width, and it determines `n`); the encoding is a total function with no
error condition. -/
theorem c2_encoding_bits_and_key (n i : Nat) (hn : n < 2 ^ 32) (hi : i < 32) :
    (attrVec n)[i]? = some (if (n >>> i) &&& 1 = 1 then one else zero) ∧
    (packKey n).length = 4 ∧
    (∀ m, m < 2 ^ 32 → packKey m = packKey n → m = n) := by
  refine ⟨?_, rfl, ?_⟩
  · rw [attrVec_eq_map]
    unfold attrVecW
    rw [List.getElem?_map, List.getElem?_range hi]
    show some (bitAttr n i) = some (if (n >>> i) &&& 1 = 1 then one else zero)
    rw [bitAttr_eq_shift_test]
  · intro m hm heq
    have h32 : (2 : Nat) ^ 32 = 4294967296 := by norm_num
    rw [h32] at hn hm
    unfold packKey at heq
    simp only [List.cons.injEq, and_true] at heq
    omega

/-- Witness for C2 at `n = 5`, `i = 0`. -/
theorem c2_witness :
    (attrVec 5)[0]? = some (if (5 >>> 0) &&& 1 = 1 then one else zero) ∧
    (packKey 5).length = 4 :=
  ⟨(c2_encoding_bits_and_key 5 0 (by norm_num) (by norm_num)).1,
   (c2_encoding_bits_and_key 5 0 (by norm_num) (by norm_num)).2.1⟩

/-- C3: decoding the attribute vector produced by the encoder reproduces
`n` exactly for every `n < 2^32`, and consequently the encoding is
injective: distinct identifiers yield attribute vectors differing in at
least one position. -/
theorem c3_roundtrip_and_injective (n : Nat) (hn : n < 2 ^ 32) :
    decode (attrVec n) = n ∧
    (∀ m, m < 2 ^ 32 → m ≠ n → attrVec m ≠ attrVec n) := by
  have hrt : ∀ k, k < 2 ^ 32 → decode (attrVec k) = k := by
    intro k hk
    rw [attrVec_eq_map, decode_attrVecW]
    exact Nat.mod_eq_of_lt hk
  refine ⟨hrt n hn, ?_⟩
  intro m hm hne heq
  apply hne
  rw [← hrt m hm, ← hrt n hn, heq]

/-- Witness for C3 at `n = 5` (and `m = 3` for injectivity). -/
theorem c3_witness :
    decode (attrVec 5) = 5 ∧ attrVec 3 ≠ attrVec 5 :=
  ⟨(c3_roundtrip_and_injective 5 (by norm_num)).1,
   (c3_roundtrip_and_injective 5 (by norm_num)).2 3 (by norm_num) (by norm_num)⟩

/-! ## Search term set (binary.cc lines 152-166) -/

/-- Modelled from the spec: the `hyperdex::search` container is declared
in hyperdex/client.h, which is not under src/; the spec describes the
Search Term Set as "a vector of 32 constraints, each pinning attribute i
to [a] sentinel value".  `search terms(32)` creates 32 unconstrained
slots. -/
def searchEmpty (sz : Nat) : List (Option Buffer) :=
  List.replicate sz none

/-- Modelled from the spec: `terms.set(i, v)` pins the constraint at index
`i` to the value `v`. -/
def searchSet (terms : List (Option Buffer)) (i : Nat) (v : Buffer) :
    List (Option Buffer) :=
  terms.set i (some v)

/-- The term set built by the search loop for identifier `num`: for each
`i` in `[0,32)`, pin attribute `i` to `one` or `zero` by the same bit test
as the load loop. -/
def searchTerms (num : Nat) : List (Option Buffer) :=
  (List.range 32).foldl (fun terms i => searchSet terms i (bitAttr num i))
    (searchEmpty 32)

theorem foldl_searchSet (f : Nat → Buffer) :
    ∀ w m, w ≤ m →
      (List.range w).foldl (fun t i => t.set i (some (f i))) (List.replicate m none)
        = (List.range w).map (fun i => some (f i)) ++ List.replicate (m - w) none := by
  intro w
  induction w with
  | zero =>
    intro m _
    simp
  | succ w ih =>
    intro m hm
    rw [List.range_succ, List.foldl_append]
    rw [ih m (Nat.le_of_succ_le hm)]
    have hlen : ((List.range w).map (fun i => some (f i))).length = w := by simp
    rw [List.foldl_cons, List.foldl_nil]
    rw [List.set_append_right w (some (f w)) (by omega)]
    have hrep : m - w = (m - (w + 1)) + 1 := by omega
    rw [hrep, List.replicate_succ, hlen, Nat.sub_self, List.set_cons_zero]
    rw [List.map_append]
    simp

/-- C4: for every identifier `n`, the search term set built in the search
phase is structurally identical to the attribute vector built in the load
phase: each slot `i` pins attribute `i` to exactly the sentinel that the
record holds at `i`. -/
theorem c4_terms_equal_attr_vector (n : Nat) :
    searchTerms n = (attrVec n).map some := by
  unfold searchTerms searchEmpty searchSet
  rw [foldl_searchSet (bitAttr n) 32 32 (Nat.le_refl 32)]
  rw [attrVec_eq_map]
  unfold attrVecW
  simp

/-! ## Search verifier (binary.cc lines 168-188) -/

/-- The anomaly classes the verifier can record for an identifier. -/
inductive Anomaly where
  | notFound (n : Nat)
  | keyMismatch (n : Nat) (expected actual : Buffer)
  | multipleMatches (n : Nat)
deriving DecidableEq, Repr

/-- Per-identifier verification, mirroring the source: if the cursor is
invalid, the identifier "found nothing"; otherwise the first result key is
compared with the expected key (recording a mismatch with both keys if
unequal), the cursor is advanced exactly once, and a still-valid cursor
records "found more than one result".  The result cursor is modelled as
the list of keys it yields in order. -/
def verifyOne (n : Nat) (key : Buffer) (results : List Buffer) : List Anomaly :=
  match results with
  | [] => [Anomaly.notFound n]
  | k :: rest =>
      (if key ≠ k then [Anomaly.keyMismatch n key k] else []) ++
      (if rest ≠ [] then [Anomaly.multipleMatches n] else [])

/-- The full verification pass: for each `n` in `[0,N)` the loop rebuilds
the key and term set, issues one search against the store, and verifies
the resulting cursor.  The store is modelled as a function from a term set
to the list of keys its cursor yields. -/
def verifyAll (store : List (Option Buffer) → List Buffer) (N : Nat) :
    List Anomaly :=
  (List.range N).foldl
    (fun acc n => acc ++ verifyOne n (packKey n) (store (searchTerms n))) []

theorem foldl_append_flatMap {α β : Type} (g : α → List β) :
    ∀ (l : List α) (acc : List β),
      l.foldl (fun a n => a ++ g n) acc = acc ++ l.flatMap g := by
  intro l
  induction l with
  | nil => intro acc; simp
  | cons a l ih => intro acc; simp [ih]

/-- C5: the per-identifier policy of the verifier — an empty cursor records
"not found"; a non-empty cursor records "key mismatch" (with both keys)
exactly when the first result key differs from the expected key, and
records "multiple matches" exactly when a second result exists after one
advance; all anomalies are non-fatal and the verifier processes the full
range `[0,N)`, each identifier searched exactly once with no retry. -/
theorem c5_verifier_policy (store : List (Option Buffer) → List Buffer) (N : Nat) :
    (∀ n key, verifyOne n key [] = [Anomaly.notFound n]) ∧
    (∀ n key k rest,
      (Anomaly.keyMismatch n key k ∈ verifyOne n key (k :: rest) ↔ key ≠ k) ∧
      (Anomaly.multipleMatches n ∈ verifyOne n key (k :: rest) ↔ rest ≠ [])) ∧
    verifyAll store N =
      (List.range N).flatMap
        (fun n => verifyOne n (packKey n) (store (searchTerms n))) := by
  refine ⟨fun n key => rfl, fun n key k rest => ?_, ?_⟩
  · constructor
    · simp only [verifyOne, List.mem_append]
      by_cases h : key = k
      · simp [h]
      · simp [h]
    · simp only [verifyOne, List.mem_append]
      by_cases h : rest = []
      · simp [h]
      · simp [h]
  · unfold verifyAll
    rw [foldl_append_flatMap]
    simp

/-- Witness for C5 with a store returning a wrong key then a duplicate for
the term set of identifier 0, over the range `[0,1)`. -/
theorem c5_witness :
    (Anomaly.keyMismatch 0 (packKey 0) (packKey 1) ∈
      verifyOne 0 (packKey 0) (packKey 1 :: [packKey 1])) ∧
    (Anomaly.multipleMatches 0 ∈
      verifyOne 0 (packKey 0) (packKey 1 :: [packKey 1])) := by
  have h := c5_verifier_policy (fun _ => [packKey 1, packKey 1]) 1
  exact ⟨((h.2.1 0 (packKey 0) (packKey 1) [packKey 1]).1).mpr (by decide),
    ((h.2.1 0 (packKey 0) (packKey 1) [packKey 1]).2).mpr (by decide)⟩

/-! ## Load driver (binary.cc lines 124-147) -/

/-- The closed set of statuses a put can return, as matched by the switch
in the load loop (SUCCESS, NOTFOUND, INVALID, ERROR, and the default
case for any unrecognized status). -/
inductive PutStatus where
  | success
  | notfound
  | invalid
  | error
  | unrecognized
deriving DecidableEq, Repr

/-- The log lines the switch emits for one put: SUCCESS breaks silently
and every other status prints a fixed message naming the outcome. -/
def putLog : PutStatus → List String
  | PutStatus.success => []
  | PutStatus.notfound => ["Put returned NOTFOUND."]
  | PutStatus.invalid => ["Put returned INVALID."]
  | PutStatus.error => ["Put returned ERROR."]
  | PutStatus.unrecognized => ["Put returned unknown status."]

/-- The load loop: for each `n` in `[0,N)` it builds the key and attribute
vector, invokes the put exactly once, and logs per the switch.  First
component: the sequence of puts issued (identifier with its record);
second component: the emitted log lines.  The status function models the
response of the store to each put. -/
def loadTrace (status : Nat → PutStatus) (N : Nat) :
    List (Nat × Buffer × List Buffer) × List String :=
  (List.range N).foldl
    (fun acc n => (acc.1 ++ [(n, packKey n, attrVec n)], acc.2 ++ putLog (status n)))
    ([], [])

theorem loadTrace_spec (status : Nat → PutStatus) (N : Nat) :
    loadTrace status N =
      ((List.range N).map (fun n => (n, packKey n, attrVec n)),
       (List.range N).flatMap (fun n => putLog (status n))) := by
  induction N with
  | zero => rfl
  | succ N ih =>
    unfold loadTrace at ih ⊢
    rw [List.range_succ, List.foldl_append, ih]
    simp

/-- C6 counterexample: in a two-identifier run, a write failing with
INVALID at `n = 0` and one failing with INVALID at `n = 1` produce
byte-identical logs, so the emitted log does not include which `n`
failed — refuting "logged including which n". -/
theorem c6_log_lacks_identifier :
    (loadTrace (fun n => if n = 0 then PutStatus.invalid else PutStatus.success) 2).2
      = (loadTrace (fun n => if n = 1 then PutStatus.invalid else PutStatus.success) 2).2
    ∧ (loadTrace (fun n => if n = 0 then PutStatus.invalid else PutStatus.success) 2).2
      = ["Put returned INVALID."] := by
  exact ⟨rfl, rfl⟩

/-- C6 (amended): the load driver invokes the write exactly once per `n`
over the whole range `[0,N)` regardless of statuses, a Success produces no
output, and every non-Success status is logged with a fixed message that
identifies the outcome (but not `n`); no status aborts the loop or
triggers a retry. -/
theorem c6_load_driver_policy (status : Nat → PutStatus) (N : Nat) :
    (loadTrace status N).1 = (List.range N).map (fun n => (n, packKey n, attrVec n)) ∧
    (loadTrace status N).2 = (List.range N).flatMap (fun n => putLog (status n)) ∧
    (∀ s, (putLog s = []) ↔ s = PutStatus.success) ∧
    (∀ s t, (putLog s = putLog t) ↔ s = t) := by
  refine ⟨?_, ?_, ?_, ?_⟩
  · rw [loadTrace_spec]
  · rw [loadTrace_spec]
  · intro s; cases s <;> simp [putLog]
  · intro s t; cases s <;> cases t <;> simp [putLog]

/-- Witness for C6 (amended) over the concrete run `N = 1` with the
single write returning INVALID. -/
theorem c6_witness :
    (loadTrace (fun _ => PutStatus.invalid) 1).1 = [(0, packKey 0, attrVec 0)] ∧
    (loadTrace (fun _ => PutStatus.invalid) 1).2 = ["Put returned INVALID."] := by
  have h := c6_load_driver_policy (fun _ => PutStatus.invalid) 1
  exact ⟨by rw [h.1]; rfl, by rw [h.2.1]; rfl⟩

/-! ## Sequential execution order (binary.cc lines 104-192) -/

/-- The observable steps of `main` between connecting and reporting, in
program-text order: the puts of the load loop, the pause, the "Starting
searches." line, the first `clock_gettime`, the searches of the search loop,
and the second `clock_gettime`. -/
inductive Event where
  | put (n : Nat)
  | sleepPause (ms : Nat)
  | logStarting
  | clockStart
  | search (n : Nat)
  | clockEnd
deriving DecidableEq, Repr

/-- Modelled from the spec: the duration of `e::sleep_ms(1, 0)` — e/timer.h
is not under src/; the spec describes this call as "one fixed pause (on
the order of one second)", i.e. 1000 milliseconds. -/
def pauseMs : Nat := 1000

/-- The straight-line event trace of `main` for a run over `[0,N)`. -/
def mainTrace (N : Nat) : List Event :=
  (List.range N).map Event.put ++
  ([Event.sleepPause pauseMs, Event.logStarting, Event.clockStart] ++
  ((List.range N).map Event.search ++
  [Event.clockEnd]))

theorem mainTrace_getElem (N i : Nat) :
    (mainTrace N)[i]? =
      if i < N then some (Event.put i)
      else if i = N then some (Event.sleepPause pauseMs)
      else if i = N + 1 then some Event.logStarting
      else if i = N + 2 then some Event.clockStart
      else if i < 2 * N + 3 then some (Event.search (i - (N + 3)))
      else if i = 2 * N + 3 then some Event.clockEnd
      else none := by
  unfold mainTrace
  by_cases h1 : i < N
  · rw [List.getElem?_append_left (by simpa using h1)]
    rw [List.getElem?_map, List.getElem?_range h1]
    simp [h1]
  · obtain ⟨d, rfl⟩ : ∃ d, i = N + d := ⟨i - N, by omega⟩
    rw [List.getElem?_append_right
      (by simp only [List.length_map, List.length_range]; exact Nat.le_add_right N d)]
    simp only [List.length_map, List.length_range, Nat.add_sub_cancel_left]
    rw [List.cons_append, List.cons_append, List.cons_append, List.nil_append]
    match d with
    | 0 =>
      simp
    | 1 =>
      have hne : ¬ N + 1 < N := by omega
      have hne2 : ¬ N + 1 = N := by omega
      simp [hne, hne2]
    | 2 =>
      have hne : ¬ N + 2 < N := by omega
      have hne2 : ¬ N + 2 = N := by omega
      have hne3 : ¬ N + 2 = N + 1 := by omega
      simp [hne, hne2, hne3]
    | (e + 3) =>
      rw [List.getElem?_cons_succ, List.getElem?_cons_succ, List.getElem?_cons_succ]
      by_cases h2 : e < N
      · rw [List.getElem?_append_left (by simpa using h2)]
        rw [List.getElem?_map, List.getElem?_range h2]
        have ha : ¬ N + (e + 3) < N := by omega
        have hb : ¬ N + (e + 3) = N := by omega
        have hc : ¬ N + (e + 3) = N + 1 := by omega
        have hd : ¬ N + (e + 3) = N + 2 := by omega
        have he : N + (e + 3) < 2 * N + 3 := by omega
        have hf : N + (e + 3) - (N + 3) = e := by omega
        simp [ha, hb, hc, hd, he, hf]
      · rw [List.getElem?_append_right (by simpa using Nat.le_of_not_lt h2)]
        simp only [List.length_map, List.length_range]
        have ha : ¬ N + (e + 3) < N := by omega
        have hb : ¬ N + (e + 3) = N := by omega
        have hc : ¬ N + (e + 3) = N + 1 := by omega
        have hd : ¬ N + (e + 3) = N + 2 := by omega
        have he : ¬ N + (e + 3) < 2 * N + 3 := by omega
        by_cases h3 : e = N
        · have hh : e - N = 0 := by omega
          rw [hh]
          simp only [List.getElem?_cons_zero]
          split_ifs <;> first | rfl | omega
        · have hg : ¬ N + (e + 3) = 2 * N + 3 := by omega
          have hh : e - N ≠ 0 := by omega
          obtain ⟨g, hgg⟩ : ∃ g, e - N = g + 1 := ⟨e - N - 1, by omega⟩
          simp [ha, hb, hc, hd, he, hg, hgg]

/-- C8: execution is fully sequential — every put of the load phase sits
at a trace position before the pause, the pause sits before the timing
start, the timing start sits before every search, and hence no search is
interleaved with any write. -/
theorem c8_sequential_phases (N : Nat) :
    (∀ i n, (mainTrace N)[i]? = some (Event.put n) → i < N ∧ n = i) ∧
    (mainTrace N)[N]? = some (Event.sleepPause pauseMs) ∧
    (mainTrace N)[N + 2]? = some Event.clockStart ∧
    (∀ j m, (mainTrace N)[j]? = some (Event.search m) → j = N + 3 + m ∧ m < N) ∧
    (∀ (i n j m : Nat), (mainTrace N)[i]? = some (Event.put n) →
      (mainTrace N)[j]? = some (Event.search m) → i < j) := by
  have hput : ∀ i n, (mainTrace N)[i]? = some (Event.put n) → i < N ∧ n = i := by
    intro i n h
    rw [mainTrace_getElem] at h
    split_ifs at h
    all_goals simp_all
  have hsearch : ∀ j m, (mainTrace N)[j]? = some (Event.search m) →
      j = N + 3 + m ∧ m < N := by
    intro j m h
    rw [mainTrace_getElem] at h
    split_ifs at h
    all_goals simp_all
    omega
  refine ⟨hput, ?_, ?_, hsearch, ?_⟩
  · rw [mainTrace_getElem]
    simp
  · rw [mainTrace_getElem]
    have ha : ¬ N + 2 < N := by omega
    have hb : ¬ N + 2 = N := by omega
    have hc : ¬ N + 2 = N + 1 := by omega
    simp [ha, hb, hc]
  · intro i n j m hi hj
    have h1 := hput i n hi
    have h2 := hsearch j m hj
    omega

/-- Witness for C8 at `N = 1`: the put of identifier 0 sits at position 0
before the pause at position 1, the timing start sits at position 3, and
the search of identifier 0 sits at position 4, after the put. -/
theorem c8_witness :
    ((0 : Nat) < 1 ∧ (0 : Nat) = 0) ∧
    (mainTrace 1)[1]? = some (Event.sleepPause pauseMs) ∧
    (0 : Nat) < 4 := by
  have h := c8_sequential_phases 1
  exact ⟨h.1 0 0 (by decide), h.2.1, h.2.2.2.2 0 0 4 0 (by decide) (by decide)⟩

/-- C10: the two sentinel byte-strings are both exactly 3 bytes long,
`one` holds the bytes of "one", `zero` holds the bytes "zer" (the literal
"zero" truncated to 3 bytes by the explicit length argument), and the two
sentinels are distinct. -/
theorem c10_sentinel_buffers :
    one.length = 3 ∧ zero.length = 3 ∧ one ≠ zero ∧
    one = ("one".toList.map Char.toNat) ∧
    zero = ("zer".toList.map Char.toNat) := by
  decide

/-- C1 (failing input): with start = (10s, 500ns) and end = (11s, 200ns)
the ending sub-second component is smaller than the starting one, yet the
guard `(end.tv_nsec < start.tv_nsec) < 0` is false, the borrow branch is
not taken, and the computed diff is the unnormalized (1s, -300ns) rather
than the claimed (0s, 999999700ns). -/
theorem c1_borrow_branch_never_taken :
    (⟨11, 200⟩ : Timespec).tv_nsec < (⟨10, 500⟩ : Timespec).tv_nsec ∧
    borrowGuard ⟨10, 500⟩ ⟨11, 200⟩ = false ∧
    timespecDiff ⟨10, 500⟩ ⟨11, 200⟩ = ⟨1, -300⟩ ∧
    timespecDiff ⟨10, 500⟩ ⟨11, 200⟩ ≠ ⟨0, 999999700⟩ := by
  refine ⟨by decide, rfl, by decide, by decide⟩

/-- C9: the guard of the borrow branch compares a boolean (0 or 1) with a
negative number and is therefore false for every pair of timestamps, so
the non-borrow branch is always taken; nevertheless, whenever the end
timestamp is not earlier than the start timestamp as a total nanosecond
instant, the reported value `diff.tv_sec * 1000000000 + diff.tv_nsec`
equals the true elapsed nanoseconds and is non-negative, the possibly
negative sub-second difference being absorbed by the signed addition. -/
theorem c9_guard_always_false_yet_value_correct (s t : Timespec) :
    borrowGuard s t = false ∧
    (instantNs s ≤ instantNs t →
      reportedNanosecs s t = instantNs t - instantNs s ∧
      0 ≤ reportedNanosecs s t) := by
  have hg : borrowGuard s t = false := by
    unfold borrowGuard
    split <;> decide
  refine ⟨hg, fun h => ?_⟩
  have hd : timespecDiff s t = ⟨t.tv_sec - s.tv_sec, t.tv_nsec - s.tv_nsec⟩ := by
    unfold timespecDiff
    rw [hg]
    simp
  unfold reportedNanosecs
  rw [hd]
  dsimp only
  unfold instantNs at h ⊢
  constructor
  · ring
  · omega

/-- Witness for C9 at the concrete pair start = (0s, 0ns), end = (1s, 5ns). -/
theorem c9_witness :
    borrowGuard ⟨0, 0⟩ ⟨1, 5⟩ = false ∧
    reportedNanosecs ⟨0, 0⟩ ⟨1, 5⟩ = instantNs ⟨1, 5⟩ - instantNs ⟨0, 0⟩ ∧
    0 ≤ reportedNanosecs ⟨0, 0⟩ ⟨1, 5⟩ := by
  refine ⟨(c9_guard_always_false_yet_value_correct ⟨0, 0⟩ ⟨1, 5⟩).1,
    (c9_guard_always_false_yet_value_correct ⟨0, 0⟩ ⟨1, 5⟩).2 (by decide)⟩
